import Mathlib

/-!
Verification of the queue-table synchronization logic of the job-queue
dashboard frontend (`src/App.tsx`, `src/lib/api.ts`).

The TypeScript code is shallowly embedded: pure computations become Lean
functions over lists and strings, the React component state that the
claims are about (working order, dirty flag, last-saved order, overlay
maps, selection) becomes explicit records with one transition function
per event handler / effect, and a fallible remote write is modelled by a
`Bool` parameter saying whether the request succeeded.

Environment-dependent pieces are parameters: `fmt` stands for the
locale/timezone dependent rendering of a present `created_at` timestamp
done by `formatLocal` (the `null`/missing branch, which returns "–", is
embedded faithfully).
-/

/-- `Job`, translated from `src/lib/api.ts`.  Optional TS fields become
`Option`; `status` stays a plain string because the code compares and
searches it as a string.  Fields never read by the queue-table logic
(`position`, `started_at`, `finished_at`, `matches_found`) are omitted. -/
structure Job where
  id : String
  name : String
  owner : String
  status : String
  priority : Option Nat
  total_rows : Nat
  processed_rows : Nat
  error_rows : Option Nat
  created_at : Option String
deriving Repr, DecidableEq

/-- The `prioOverrides` map (`Record<string, number>`), as an association
list of key/value pairs in insertion order. -/
abbrev Overrides := List (String × Nat)

/-- `prioOverrides[j.id]` guarded by `j.id in prioOverrides`: the value of
the first pair with the given key, if any. -/
def lookupOv (m : Overrides) (i : String) : Option Nat :=
  (m.find? (fun p => p.fst == i)).map Prod.snd

/-- `getPrio` (App.tsx 1430): `j.id in prioOverrides ? prioOverrides[j.id]
: (j.priority ?? 5)`. -/
def getPrio (m : Overrides) (j : Job) : Nat :=
  (lookupOv m j.id).getD (j.priority.getD 5)

/-- JS `{...m, [id]: v}` on a string-keyed object: an existing key keeps
its position but gets the new value, a fresh key is appended. -/
def setOverride (m : Overrides) (i : String) (v : Nat) : Overrides :=
  if m.any (fun p => p.fst == i) then
    m.map (fun p => if p.fst == i then (i, v) else p)
  else m ++ [(i, v)]

/-- JS `const { [id]: _, ...rest } = m` : drop the key. -/
def removeOverride (m : Overrides) (i : String) : Overrides :=
  m.filter (fun p => p.fst != i)

/-- `formatLocal` (App.tsx 1432-1442).  `if (!iso) return '–'` fires for a
missing timestamp and for the empty string; the `Date`-based rendering of
a present timestamp is locale/timezone dependent and is therefore a
parameter `fmt`. -/
def formatLocal (fmt : String → String) : Option String → String
  | none => "–"
  | some iso => if iso = "" then "–" else fmt iso

/-- JS `s.trim()`: drop leading and trailing whitespace.  (Defined over
the character list so that it computes by kernel reduction; the library
`String.trim` is extensionally the same but does not reduce.) -/
def jsTrim (s : String) : String :=
  ⟨((s.data.dropWhile Char.isWhitespace).reverse.dropWhile Char.isWhitespace).reverse⟩

/-- JS `s.toLowerCase()` (ASCII-relevant part): lower-case every
character. -/
def jsToLower (s : String) : String :=
  ⟨s.data.map Char.toLower⟩

/-- JS `s.split('|')` on the underlying characters: `"" ↦ [""]`,
`"a|" ↦ ["a", ""]`, separators are single `|` characters. -/
def splitPipeChars : List Char → List (List Char)
  | [] => [[]]
  | c :: t =>
    if c = '|' then [] :: splitPipeChars t
    else
      match splitPipeChars t with
      | [] => [[c]]
      | h :: r => (c :: h) :: r

/-- JS `s.split('|')`. -/
def jsSplitPipe (s : String) : List String :=
  (splitPipeChars s.data).map (fun l => ⟨l⟩)

/-- JS `parts.join(sep)`: empty array gives `""`, otherwise the elements
interleaved with the separator. -/
def jsJoin (sep : String) : List String → String
  | [] => ""
  | [x] => x
  | x :: r => x ++ sep ++ jsJoin sep r

/-- JS `hay.includes(part)`: substring containment. -/
def jsIncludes (hay part : String) : Bool :=
  decide (part.toList <:+: hay.toList)

/-- The search haystack of a job (App.tsx 1544-1553):
`[name, owner, status, String(priority ?? ''), formatLocal(created_at)]
.filter(Boolean).join(' ').toLowerCase()`. -/
def haystack (fmt : String → String) (j : Job) : String :=
  jsToLower (jsJoin " "
    ([j.name, j.owner, j.status,
      (match j.priority with | some p => toString p | none => ""),
      formatLocal fmt j.created_at].filter (fun s => s != "")))

/-- Filter criteria of the queue table: owner/status/priority allow-lists,
free-text query, hide-completed toggle. -/
structure Criteria where
  ownerFilter : List String
  statusFilter : List String
  prioFilter : List Nat
  q : String
  hideCompleted : Bool
deriving Repr, DecidableEq

/-- The free-text part of the filter predicate (App.tsx 1532-1536, 1555):
`qn = q.trim().toLowerCase()`,
`qParts = qn.split('|').map(s => s.trim()).filter(Boolean)`,
`qOk = !qn || qParts.length === 0 || qParts.every(p => haystack.includes(p))`. -/
def queryOk (fmt : String → String) (q : String) (j : Job) : Bool :=
  let qn := jsToLower (jsTrim q)
  let qParts := ((jsSplitPipe qn).map jsTrim).filter (fun s => s != "")
  (qn == "") || qParts.isEmpty || qParts.all (fun part => jsIncludes (haystack fmt j) part)

/-- `filteredAll` (App.tsx 1531-1559): keep snapshot order, AND of the
five predicates. -/
def filteredAll (fmt : String → String) (crit : Criteria) (ov : Overrides)
    (jobs : List Job) : List Job :=
  jobs.filter (fun j =>
    (crit.ownerFilter.isEmpty || crit.ownerFilter.contains j.owner)
    && (crit.statusFilter.isEmpty || crit.statusFilter.contains j.status)
    && (crit.prioFilter.isEmpty || crit.prioFilter.contains (getPrio ov j))
    && (!crit.hideCompleted || j.status != "completed")
    && queryOk fmt crit.q j)

/-- `new Map(S.map(j => [j.id, j])).get(i)` (App.tsx 1597): a JS `Map`
keeps the LAST value written for a key, so this is the last job of `S`
whose id is `i`. -/
def jsMapGet (S : List Job) (i : String) : Option Job :=
  S.reverse.find? (fun s => s.id == i)

/-- JS object spread `{...old, ...new}` where both operands are full `Job`
rows (every modelled field present on `new`), so each field of `new`
overwrites the one of `old`. -/
def mergeSpread (_old new : Job) : Job :=
  { id := new.id, name := new.name, owner := new.owner, status := new.status,
    priority := new.priority, total_rows := new.total_rows,
    processed_rows := new.processed_rows, error_rows := new.error_rows,
    created_at := new.created_at }

/-- The dirty-branch snapshot reconciliation (App.tsx 1596-1603):
`prev.filter(j => byId.has(j.id)).map(j => ({...j, ...byId.get(j.id)!}))
.concat(S.filter(j => !prev.some(p => p.id === j.id)))`. -/
def reconcile (W S : List Job) : List Job :=
  ((W.filter (fun j => (jsMapGet S j.id).isSome)).map
      (fun j => mergeSpread j ((jsMapGet S j.id).getD j)))
    ++ S.filter (fun s => !(W.any (fun p => p.id == s.id)))

/-- The manual-ordering state of `QueueTable` (App.tsx 1589-1591):
`rows` (the Working Order as rendered), the `dirty` flag, and
`lastServerOrderRef` (ids of the last-known-saved order). -/
structure OrderState where
  rows : List Job
  dirty : Bool
  lastSaved : List String
deriving Repr, DecidableEq

/-- The rows-reconciliation effect (App.tsx 1592-1605): on a new filtered
snapshot `S`, a clean state is replaced by `S` (and the saved-order
reference resynced), a dirty state has its rows reconciled; the `dirty`
flag itself is not written by this effect. -/
def applySnapshot (st : OrderState) (S : List Job) : OrderState :=
  if st.dirty then { st with rows := reconcile st.rows S }
  else { rows := S, dirty := st.dirty, lastSaved := S.map Job.id }

/-- Sort keys (App.tsx 62). -/
inductive SortKey where
  | manual
  | name
  | created_at
  | status
  | priority
deriving Repr, DecidableEq

/-- The pieces of view state that the reorder-enablement predicate reads. -/
structure ViewEnv where
  sortKey : SortKey
  crit : Criteria
deriving Repr, DecidableEq

/-- `searchActive` (App.tsx 1458): `q.trim().length > 0`. -/
def searchActive (c : Criteria) : Bool :=
  jsTrim c.q != ""

/-- `filtersApplied` (App.tsx 1459-1460). -/
def filtersApplied (c : Criteria) : Bool :=
  !c.ownerFilter.isEmpty || !c.statusFilter.isEmpty || !c.prioFilter.isEmpty || searchActive c

/-- `filtersActive` (App.tsx 1461). -/
def filtersActive (c : Criteria) : Bool :=
  filtersApplied c || c.hideCompleted

/-- `manualReorderEnabled` (App.tsx 1462): `isManual && !filtersActive`. -/
def manualReorderEnabled (env : ViewEnv) : Bool :=
  (env.sortKey == SortKey.manual) && !(filtersActive env.crit)

/-- dnd-kit's `arrayMove`: remove the element at `i`, reinsert it at `j`.
Out-of-range `i` (never produced by the call sites, which check
`findIndex !== -1`) leaves the list unchanged. -/
def arrayMove (l : List Job) (i j : Nat) : List Job :=
  match l[i]? with
  | none => l
  | some x => (l.eraseIdx i).insertIdx j x

/-- `ids.join('|')`, the string the code compares orders with
(App.tsx 1708, 1800). -/
def joinIds (ids : List String) : String :=
  jsJoin "|" ids

/-- `onDragEnd` (App.tsx 1699-1709).  The drop target `overId` is modelled
as present (the `!over` early return corresponds to no call). -/
def onDragEnd (env : ViewEnv) (st : OrderState) (activeId overId : String) : OrderState :=
  if !manualReorderEnabled env then st
  else if activeId == overId then st
  else
    match st.rows.findIdx? (fun r => r.id == activeId),
          st.rows.findIdx? (fun r => r.id == overId) with
    | some a, some b =>
        let next := arrayMove st.rows a b
        { st with rows := next,
                  dirty := joinIds (next.map Job.id) != joinIds st.lastSaved }
    | _, _ => st

/-- `moveUp` (App.tsx 1774-1781): `if (i <= 0) return;` then
`arrayMove(rows, i, i - 1)` and `setDirty(true)`. -/
def moveUp (env : ViewEnv) (st : OrderState) (id : String) : OrderState :=
  if !manualReorderEnabled env then st
  else
    match st.rows.findIdx? (fun r => r.id == id) with
    | none => st
    | some i =>
        if i = 0 then st
        else { st with rows := arrayMove st.rows i (i - 1), dirty := true }

/-- `moveDown` (App.tsx 1782-1789): `if (i === -1 || i === rows.length - 1)
return;` then `arrayMove(rows, i, i + 1)` and `setDirty(true)`. -/
def moveDown (env : ViewEnv) (st : OrderState) (id : String) : OrderState :=
  if !manualReorderEnabled env then st
  else
    match st.rows.findIdx? (fun r => r.id == id) with
    | none => st
    | some i =>
        if i = st.rows.length - 1 then st
        else { st with rows := arrayMove st.rows i (i + 1), dirty := true }

/-- `toTop` (App.tsx 1755-1773).  The reorder and priority writes are
fire-and-forget; whatever their outcome (`success`), the code afterwards
runs `setDirty(false)` and replaces `lastServerOrderRef` with the new
order, so the resulting state does not depend on `success`. -/
def toTop (env : ViewEnv) (st : OrderState) (id : String) ( success : Bool) : OrderState :=
  if !manualReorderEnabled env then st
  else
    let nextOrderIds := id :: (st.rows.filter (fun r => r.id != id)).map Job.id
    let rows' :=
      match st.rows.find? (fun j => j.id == id) with
      | none => st.rows
      | some job => job :: st.rows.filter (fun j => j.id != id)
    { rows := rows', dirty := false, lastSaved := nextOrderIds }

/-- `saveOrder` (App.tsx 1790-1799).  `await onReorder(order)` never
throws (the App-level handler catches the API error and only shows a
toast), and the `finally` block runs `setDirty(false)` and replaces
`lastServerOrderRef` in every case, so the resulting state does not
depend on whether the persist request failed (`requestFailed`). -/
def saveOrder (env : ViewEnv) (st : OrderState) ( requestFailed : Bool) : OrderState :=
  if !manualReorderEnabled env then st
  else { st with dirty := false, lastSaved := st.rows.map Job.id }

/-- The body of the sort comparator for one field value pair
(App.tsx 1634-1637): `if (av < bv) return dir ? -1 : 1; if (av > bv)
return dir ? 1 : -1; return tie;`. -/
def cmpVal {α : Type} [LinearOrder α] (dirAsc : Bool) (av bv : α) (tie : Int) : Int :=
  if av < bv then (if dirAsc then -1 else 1)
  else if bv < av then (if dirAsc then 1 else -1)
  else tie

/-- JS `jobs.findIndex(j => j.id === i)`: the index, or `-1` if absent. -/
def jsFindIndex (jobs : List Job) (i : String) : Int :=
  match jobs.findIdx? (fun j => j.id == i) with
  | some n => (n : Int)
  | none => -1

/-- The tie-breaker of the comparator (App.tsx 1637): difference of the
two jobs' indices in the full snapshot. -/
def tieBreak (jobs : List Job) (a b : Job) : Int :=
  jsFindIndex jobs a.id - jsFindIndex jobs b.id

/-- The full comparator `cmp` of `baseRows` (App.tsx 1611-1638): pick the
field values for the active key (`created_at || ''`, effective priority
for the priority key, `0` for the impossible default), compare in the
chosen direction, fall back to snapshot-index order. -/
def jsCompare (ov : Overrides) (jobs : List Job) (key : SortKey) (dirAsc : Bool)
    (a b : Job) : Int :=
  match key with
  | SortKey.name => cmpVal dirAsc a.name b.name (tieBreak jobs a b)
  | SortKey.created_at =>
      cmpVal dirAsc (a.created_at.getD "") (b.created_at.getD "") (tieBreak jobs a b)
  | SortKey.status => cmpVal dirAsc a.status b.status (tieBreak jobs a b)
  | SortKey.priority => cmpVal dirAsc (getPrio ov a) (getPrio ov b) (tieBreak jobs a b)
  | SortKey.manual => cmpVal dirAsc (0 : Nat) 0 (tieBreak jobs a b)

/-- `arr.sort(cmp)` (App.tsx 1639): JS `Array.prototype.sort` is a stable
sort governed by the comparator, embedded as a stable merge sort with
`le a b := cmp a b <= 0`. -/
def sortJobs (ov : Overrides) (jobs : List Job) (key : SortKey) (dirAsc : Bool)
    (arr : List Job) : List Job :=
  arr.mergeSort (fun a b => decide (jsCompare ov jobs key dirAsc a b ≤ 0))

/-- `baseRows` (App.tsx 1608-1641): manual mode renders the working order
verbatim, any other key sorts the filtered snapshot. -/
def baseRows (fmt : String → String) (ov : Overrides) (crit : Criteria)
    (key : SortKey) (dirAsc : Bool) (rows jobs : List Job) : List Job :=
  match key with
  | SortKey.manual => rows
  | _ => sortJobs ov jobs key dirAsc (filteredAll fmt crit ov jobs)

/-- Progress-poll batch size (App.tsx 1655). -/
def BATCH : Nat := 25

/-- The slice fetched by one poll tick (App.tsx 1660-1665): empty active
list means no requests; otherwise reset an out-of-range cursor to 0 and
take `idsAll.slice(cursor, cursor + BATCH)`. -/
def tickSlice (ids : List String) (cursor : Nat) : List String :=
  if ids.isEmpty then []
  else
    let c := if cursor ≥ ids.length then 0 else cursor
    (ids.drop c).take BATCH

/-- The cursor after one poll tick (App.tsx 1664-1666):
`cursor = (cursor + BATCH) % idsAll.length` (after the same reset). -/
def tickNext (ids : List String) (cursor : Nat) : Nat :=
  if ids.isEmpty then cursor
  else
    let c := if cursor ≥ ids.length then 0 else cursor
    (c + BATCH) % ids.length

/-- The cursor before tick `k+1`, for an unchanged active-id list and the
initial cursor 0 (`let cursor = 0` in the effect). -/
def cursorAfter (ids : List String) : Nat → Nat
  | 0 => 0
  | k + 1 => tickNext ids (cursorAfter ids k)

/-- All ids fetched during the first `k` ticks. -/
def fetchedWithin (ids : List String) : Nat → List String
  | 0 => []
  | k + 1 => fetchedWithin ids k ++ tickSlice ids (cursorAfter ids k)

/-- `PriorityCell.doSave` (App.tsx 3004-3016) combined with the
`onChangeLocal` / `onError` handlers wired to it (App.tsx 2196-2207):
the override entry is written optimistically, then the remote write is
issued; on failure the entry is removed again, on success it is left in
place.  The first component is the override map at the moment the remote
write is issued, the second is the map after the write settles. -/
def doSave (m : Overrides) (jobId : String) (draft : Nat) ( success : Bool) :
    Overrides × Overrides :=
  let optimistic := setOverride m jobId draft
  (optimistic, if success then optimistic else removeOverride optimistic jobId)

/-- The selection-owning state of `QueueTable`. -/
structure UIState where
  crit : Criteria
  pageSize : Nat
  selectedIds : List String
deriving Repr, DecidableEq

/-- The selection-clearing effect (App.tsx 1712-1715): `setSelectedIds([])`
whenever any of `ownerFilter, statusFilter, prioFilter, q, pageSize,
hideCompleted` changed. -/
def applyCriteriaChange (st : UIState) (c : Criteria) (ps : Nat) : UIState :=
  { crit := c, pageSize := ps,
    selectedIds := if c = st.crit ∧ ps = st.pageSize then st.selectedIds else [] }

/-- Strictly-before in the chosen direction: `<` on the compared field
values for ascending, `>` for descending. -/
def dirLt {α : Type} [LinearOrder α] (d : Bool) (x y : α) : Prop :=
  if d then x < y else y < x

/-- The claim's notion of a sort tie: the two jobs have equal values of
the compared field. -/
def sameKeyField (ov : Overrides) (key : SortKey) (a b : Job) : Bool :=
  match key with
  | SortKey.name => a.name == b.name
  | SortKey.created_at => a.created_at.getD "" == b.created_at.getD ""
  | SortKey.status => a.status == b.status
  | SortKey.priority => getPrio ov a == getPrio ov b
  | SortKey.manual => true

/-- What the sorted view must look like: a permutation of the filtered
subset, ties resolved by ascending snapshot index, and any
comparator-sorted permutation of the input is this very list (so every
correct sort routine produces the same output — determinism). -/
def sortOutputSpec (ov : Overrides) (jobs : List Job) (key : SortKey) (dirAsc : Bool)
    (xs out : List Job) : Prop :=
  out.Perm xs
  ∧ List.Pairwise (fun a b => sameKeyField ov key a b = true →
      jsFindIndex jobs a.id < jsFindIndex jobs b.id) out
  ∧ (∀ l, l.Perm xs →
      List.Pairwise (fun a b => jsCompare ov jobs key dirAsc a b ≤ 0) l → l = out)

/-! ### Concrete fixtures used by counterexamples and witnesses -/

/-- A job with the routinely irrelevant fields fixed. -/
def mkJob (i n st : String) (pr : Option Nat) : Job :=
  { id := i, name := n, owner := "o", status := st, priority := pr,
    total_rows := 0, processed_rows := 0, error_rows := none, created_at := none }

/-- Identity stand-in for the environment-dependent date rendering. -/
def fmtId : String → String := fun s => s

def critEmpty : Criteria :=
  { ownerFilter := [], statusFilter := [], prioFilter := [], q := "", hideCompleted := false }

def critQuery (q : String) : Criteria :=
  { critEmpty with q := q }

def envManual : ViewEnv := { sortKey := SortKey.manual, crit := critEmpty }

def envHide : ViewEnv :=
  { sortKey := SortKey.manual, crit := { critEmpty with hideCompleted := true } }

def jobA : Job := mkJob "a1" "alpha-job" "completed" (some 3)

def jobG : Job := mkJob "g1" "gamma-job" "queued" (some 2)

def jobP : Job := mkJob "a" "A" "queued" (some 1)

def jobQ : Job := mkJob "b" "B" "queued" (some 2)

def stPQ : OrderState := { rows := [jobP, jobQ], dirty := false, lastSaved := ["a", "b"] }

def stDirty : OrderState := { rows := [jobP, jobQ], dirty := true, lastSaved := ["b", "a"] }

/-! ### Helper lemmas about the reconciliation -/

lemma mergeSpread_eq_new (a b : Job) : mergeSpread a b = b := rfl

lemma jsMapGet_eq_some (S : List Job) (i : String) (s : Job)
    (h : jsMapGet S i = some s) : s.id = i ∧ s ∈ S := by
  unfold jsMapGet at h
  refine ⟨?_, ?_⟩
  · simpa using List.find?_some h
  · simpa [List.mem_reverse] using List.mem_of_find?_eq_some h

lemma jsMapGet_isSome_iff (S : List Job) (i : String) :
    (jsMapGet S i).isSome = true ↔ ∃ s ∈ S, s.id = i := by
  unfold jsMapGet
  simp [List.find?_isSome, List.mem_reverse]

lemma isSome_eq_contains (S : List Job) (i : String) :
    (jsMapGet S i).isSome = (S.map Job.id).contains i := by
  rw [Bool.eq_iff_iff, jsMapGet_isSome_iff]
  show _ ↔ List.elem i (S.map Job.id) = true
  rw [List.elem_iff]
  simp [List.mem_map]

lemma any_id_eq_contains (W : List Job) (i : String) :
    W.any (fun p => p.id == i) = (W.map Job.id).contains i := by
  rw [Bool.eq_iff_iff, List.any_eq_true]
  show _ ↔ List.elem i (W.map Job.id) = true
  rw [List.elem_iff]
  simp [List.mem_map]

lemma updFromSnap_id (S : List Job) (j : Job) :
    (mergeSpread j ((jsMapGet S j.id).getD j)).id = j.id := by
  cases hx : jsMapGet S j.id with
  | none => rfl
  | some s => simp [mergeSpread_eq_new, (jsMapGet_eq_some S j.id s hx).1]

lemma filter_comp_map {α β : Type} (f : α → β) (p : β → Bool) (l : List α) :
    (l.filter (fun x => p (f x))).map f = (l.map f).filter p := by
  induction l with
  | nil => rfl
  | cons a t ih => by_cases h : p (f a) <;> simp [List.filter_cons, h, ih]

lemma pairwise_id_ne_of_nodup {S : List Job} (h : (S.map Job.id).Nodup) :
    S.Pairwise (fun a b => a.id ≠ b.id) :=
  List.pairwise_map.mp h

lemma eq_of_mem_of_id_eq {S : List Job} (h : (S.map Job.id).Nodup) {x r : Job}
    (hx : x ∈ S) (hr : r ∈ S) (hid : x.id = r.id) : x = r := by
  induction S with
  | nil => cases hx
  | cons a t ih =>
    have hpw := pairwise_id_ne_of_nodup h
    rw [List.pairwise_cons] at hpw
    have ht : (t.map Job.id).Nodup := by
      have h' : (a.id :: t.map Job.id).Nodup := by simpa using h
      exact h'.of_cons
    rcases List.mem_cons.mp hx with rfl | hx'
    · rcases List.mem_cons.mp hr with rfl | hr'
      · rfl
      · exact absurd hid (hpw.1 r hr')
    · rcases List.mem_cons.mp hr with rfl | hr'
      · exact absurd hid.symm (hpw.1 x hx')
      · exact ih ht hx' hr'

lemma jsMapGet_self {S : List Job} (h : (S.map Job.id).Nodup) {r : Job}
    (hr : r ∈ S) : jsMapGet S r.id = some r := by
  have hs : (jsMapGet S r.id).isSome = true :=
    (jsMapGet_isSome_iff S r.id).mpr ⟨r, hr, rfl⟩
  cases hx : jsMapGet S r.id with
  | none => rw [hx] at hs; cases hs
  | some x =>
    obtain ⟨hid, hmem⟩ := jsMapGet_eq_some S r.id x hx
    rw [eq_of_mem_of_id_eq h hmem hr hid]

lemma filter_of_filter_sub {α : Type} (p q : α → Bool) (l : List α)
    (himp : ∀ x, q x = true → p x = true) :
    (l.filter p).filter q = l.filter q := by
  induction l with
  | nil => rfl
  | cons a t ih =>
    by_cases hq : q a = true
    · have hp := himp a hq
      simp [List.filter_cons, hp, hq, ih]
    · by_cases hp : p a = true <;>
        simp [List.filter_cons, hp, hq, ih]

lemma reconcile_ids (W S : List Job) :
    (reconcile W S).map Job.id
      = (W.map Job.id).filter (fun i => (S.map Job.id).contains i)
        ++ (S.map Job.id).filter (fun i => !((W.map Job.id).contains i)) := by
  unfold reconcile
  rw [List.map_append, List.map_map]
  congr 1
  · have h1 : List.map (Job.id ∘ fun j => mergeSpread j ((jsMapGet S j.id).getD j))
        (W.filter (fun j => (jsMapGet S j.id).isSome))
        = List.map Job.id (W.filter (fun j => (jsMapGet S j.id).isSome)) :=
      List.map_congr_left (fun a _ => by
        simpa [Function.comp] using updFromSnap_id S a)
    rw [h1, List.filter_congr (fun x _ => isSome_eq_contains S x.id)]
    exact filter_comp_map Job.id _ W
  · rw [List.filter_congr (fun x _ => by rw [any_id_eq_contains] :
      ∀ x ∈ S, (!(W.any fun p => p.id == x.id)) = (!((W.map Job.id).contains x.id)))]
    exact filter_comp_map Job.id (fun i => !((W.map Job.id).contains i)) S

lemma reconcile_mem_snapshot (W S : List Job) : ∀ r ∈ reconcile W S, r ∈ S := by
  intro r hr
  unfold reconcile at hr
  rcases List.mem_append.mp hr with h | h
  · obtain ⟨j, hj, rfl⟩ := List.mem_map.mp h
    have hp := (List.mem_filter.mp hj).2
    cases hx : jsMapGet S j.id with
    | none => rw [hx] at hp; cases hp
    | some s =>
      simpa [hx, mergeSpread_eq_new] using (jsMapGet_eq_some S j.id s hx).2
  · exact List.mem_of_mem_filter h

/-- C1: reconciliation keeps the surviving Working-Order ids in their
Working-Order positions with the row data refreshed from the Snapshot,
appends the Snapshot-only ids in Snapshot order, drops ids no longer in
the Snapshot, and hence restricted to the ids present in both lists it is
the id-subsequence of the Working Order. -/
theorem reconcile_keeps_survivors_appends_new (W S : List Job) :
    ((reconcile W S).map Job.id
        = (W.map Job.id).filter (fun i => (S.map Job.id).contains i)
          ++ (S.map Job.id).filter (fun i => !((W.map Job.id).contains i)))
    ∧ (∀ r ∈ reconcile W S, r ∈ S)
    ∧ (((reconcile W S).map Job.id).filter
          (fun i => (W.map Job.id).contains i && (S.map Job.id).contains i)
        = (W.map Job.id).filter
          (fun i => (W.map Job.id).contains i && (S.map Job.id).contains i)) := by
  refine ⟨reconcile_ids W S, reconcile_mem_snapshot W S, ?_⟩
  rw [reconcile_ids, List.filter_append]
  have hA : ((W.map Job.id).filter (fun i => (S.map Job.id).contains i)).filter
        (fun i => (W.map Job.id).contains i && (S.map Job.id).contains i)
      = (W.map Job.id).filter
        (fun i => (W.map Job.id).contains i && (S.map Job.id).contains i) := by
    apply filter_of_filter_sub
    intro x hx
    exact ((Bool.and_eq_true _ _).mp hx).2
  have hB : ((S.map Job.id).filter (fun i => !((W.map Job.id).contains i))).filter
        (fun i => (W.map Job.id).contains i && (S.map Job.id).contains i) = [] := by
    apply List.filter_eq_nil_iff.mpr
    intro a ha
    have h1 := (List.mem_filter.mp ha).2
    rw [Bool.not_eq_true'] at h1
    simp only [h1, Bool.false_and]
    exact Bool.false_ne_true
  rw [hA, hB, List.append_nil]

lemma contains_iff_mem_str (l : List String) (i : String) :
    l.contains i = true ↔ i ∈ l := by
  show List.elem i l = true ↔ i ∈ l
  exact List.elem_iff

/-- C5: reconciling an already-reconciled order against the same snapshot
(whose job ids, per the data model, are unique) changes nothing. -/
theorem reconcile_idempotent (W S : List Job) (h : (S.map Job.id).Nodup) :
    reconcile (reconcile W S) S = reconcile W S := by
  set R := reconcile W S with hR
  have hmem : ∀ r ∈ R, r ∈ S := reconcile_mem_snapshot W S
  have hfilter : R.filter (fun j => (jsMapGet S j.id).isSome) = R := by
    apply List.filter_eq_self.mpr
    intro a ha
    rw [isSome_eq_contains, contains_iff_mem_str]
    exact List.mem_map.mpr ⟨a, hmem a ha, rfl⟩
  have hmap : R.map (fun j => mergeSpread j ((jsMapGet S j.id).getD j)) = R := by
    have hc : ∀ a ∈ R, (fun j => mergeSpread j ((jsMapGet S j.id).getD j)) a = id a := by
      intro a ha
      simp [jsMapGet_self h (hmem a ha), mergeSpread_eq_new]
    rw [List.map_congr_left hc, List.map_id]
  have happ : S.filter (fun s => !(R.any fun p => p.id == s.id)) = [] := by
    apply List.filter_eq_nil_iff.mpr
    intro s hs
    have hsid : s.id ∈ R.map Job.id := by
      rw [hR, reconcile_ids W S, List.mem_append]
      by_cases hw : s.id ∈ W.map Job.id
      · left
        exact List.mem_filter.mpr ⟨hw, (contains_iff_mem_str _ _).mpr
          (List.mem_map.mpr ⟨s, hs, rfl⟩)⟩
      · right
        refine List.mem_filter.mpr ⟨List.mem_map.mpr ⟨s, hs, rfl⟩, ?_⟩
        rw [Bool.not_eq_true', Bool.eq_false_iff]
        intro hc
        exact hw ((contains_iff_mem_str _ _).mp hc)
    obtain ⟨r, hrR, hrid⟩ := List.mem_map.mp hsid
    have hany : R.any (fun p => p.id == s.id) = true :=
      List.any_eq_true.mpr ⟨r, hrR, by simp [hrid]⟩
    simp [hany]
  show ((R.filter (fun j => (jsMapGet S j.id).isSome)).map
      (fun j => mergeSpread j ((jsMapGet S j.id).getD j)))
    ++ S.filter (fun s => !(R.any (fun p => p.id == s.id))) = R
  rw [hfilter, hmap, happ, List.append_nil]

/-- Witness for C5 at a concrete dirty order and snapshot. -/
theorem reconcile_idempotent_witness :
    ([jobQ, jobP].map Job.id).Nodup
    ∧ reconcile (reconcile [jobP] [jobQ, jobP]) [jobQ, jobP]
        = reconcile [jobP] [jobQ, jobP] :=
  ⟨by decide, reconcile_idempotent [jobP] [jobQ, jobP] (by decide)⟩

lemma find?_setMap (i : String) (v : Nat) :
    ∀ (m : Overrides), m.any (fun p => p.fst == i) = true →
      (m.map (fun p => if p.fst == i then (i, v) else p)).find? (fun p => p.fst == i)
        = some (i, v) := by
  intro m
  induction m with
  | nil => intro h; simp at h
  | cons q t ih =>
    intro h
    by_cases hq : (q.fst == i) = true
    · rw [List.map_cons]
      have h1 : (if (q.fst == i) = true then (i, v) else q) = (i, v) := by rw [if_pos hq]
      rw [h1, List.find?_cons]
      simp
    · have hqf : (q.fst == i) = false := by simpa using hq
      have ht : t.any (fun p => p.fst == i) = true := by
        rw [List.any_cons, hqf, Bool.false_or] at h
        exact h
      rw [List.map_cons]
      have h1 : (if (q.fst == i) = true then (i, v) else q) = q := by rw [if_neg hq]
      rw [h1, List.find?_cons, hqf]
      exact ih ht

lemma lookup_setOverride (m : Overrides) (i : String) (v : Nat) :
    lookupOv (setOverride m i v) i = some v := by
  unfold setOverride lookupOv
  by_cases h : m.any (fun p => p.fst == i) = true
  · rw [if_pos h, find?_setMap i v m h]
    rfl
  · rw [if_neg h, List.find?_append]
    have h1 : m.find? (fun p => p.fst == i) = none := by
      rw [List.find?_eq_none]
      intro x hx hpx
      exact h (List.any_eq_true.mpr ⟨x, hx, hpx⟩)
    simp [h1, List.find?_cons]

lemma lookup_removeOverride (m : Overrides) (i : String) :
    lookupOv (removeOverride m i) i = none := by
  unfold removeOverride lookupOv
  have h1 : (m.filter (fun p => p.fst != i)).find? (fun p => p.fst == i) = none := by
    rw [List.find?_eq_none]
    intro x hx hpx
    have := (List.mem_filter.mp hx).2
    rw [bne_iff_ne] at this
    exact this (by simpa using hpx)
  simp [h1]

/-- C2 counterexample: in enabled manual mode, moving a job up and then
back down restores exactly the last-saved order, yet the dirty flag stays
`true` — `moveUp`/`moveDown` set it unconditionally instead of comparing
with the last-saved reference. -/
theorem dirty_flag_counterexample :
    ((moveDown envManual (moveUp envManual stPQ "b") "b").rows.map Job.id
        = (moveDown envManual (moveUp envManual stPQ "b") "b").lastSaved)
    ∧ (moveDown envManual (moveUp envManual stPQ "b") "b").dirty = true := by
  decide

/-- C2 amended: only a drag recomputes the dirty flag, by comparing the
joined id strings of the new order and the last-saved reference (so a drag
that restores the saved order clears it); move-up and move-down set dirty
unconditionally; and a snapshot arriving on a dirty state leaves the flag
dirty — it is not recomputed. -/
theorem dirty_flag_amended :
    (∀ env st aId oId a b, manualReorderEnabled env = true → (aId == oId) = false →
      st.rows.findIdx? (fun r => r.id == aId) = some a →
      st.rows.findIdx? (fun r => r.id == oId) = some b →
      (onDragEnd env st aId oId).dirty
        = (joinIds ((arrayMove st.rows a b).map Job.id) != joinIds st.lastSaved))
    ∧ (∀ env st jid i, manualReorderEnabled env = true →
      st.rows.findIdx? (fun r => r.id == jid) = some i → i ≠ 0 →
      (moveUp env st jid).dirty = true)
    ∧ (∀ env st jid i, manualReorderEnabled env = true →
      st.rows.findIdx? (fun r => r.id == jid) = some i → i ≠ st.rows.length - 1 →
      (moveDown env st jid).dirty = true)
    ∧ (∀ st S, st.dirty = true → (applySnapshot st S).dirty = true) := by
  refine ⟨?_, ?_, ?_, ?_⟩
  · intro env st aId oId a b h1 h2 ha hb
    simp [onDragEnd, h1, h2, ha, hb]
  · intro env st jid i h1 ha hi
    simp [moveUp, h1, ha, hi]
  · intro env st jid i h1 ha hi
    simp [moveDown, h1, ha, hi]
  · intro st S h
    simp [applySnapshot, h]

/-- Witness for the amended C2 at concrete states. -/
theorem dirty_flag_amended_witness :
    ((onDragEnd envManual stPQ "a" "b").dirty
        = (joinIds ((arrayMove stPQ.rows 0 1).map Job.id) != joinIds stPQ.lastSaved))
    ∧ (moveUp envManual stPQ "b").dirty = true
    ∧ (moveDown envManual stPQ "a").dirty = true
    ∧ (applySnapshot stDirty []).dirty = true :=
  ⟨dirty_flag_amended.1 envManual stPQ "a" "b" 0 1 (by decide) (by decide)
      (by decide) (by decide),
   dirty_flag_amended.2.1 envManual stPQ "b" 1 (by decide) (by decide) (by decide),
   dirty_flag_amended.2.2.1 envManual stPQ "a" 0 (by decide) (by decide) (by decide),
   dirty_flag_amended.2.2.2 stDirty [] (by decide)⟩

/-- C3 counterexample: a dirty state whose order differs from the saved
reference, saved while the persist request FAILS (`requestFailed = true`):
the code still clears the dirty flag and replaces the last-saved reference
with the attempted order, contrary to the claim that failure leaves the
state dirty with the reference untouched. -/
theorem saveOrder_failure_counterexample :
    stDirty.dirty = true
    ∧ stDirty.rows.map Job.id ≠ stDirty.lastSaved
    ∧ (saveOrder envManual stDirty true).dirty = false
    ∧ (saveOrder envManual stDirty true).lastSaved = stDirty.rows.map Job.id := by
  decide

/-- C3 amended: whether the persist request fails or succeeds, saving in
enabled manual mode always clears the dirty flag and makes the current
order the new last-saved reference (the rows are left as-is; a failure is
only surfaced as a toast). -/
theorem saveOrder_amended :
    ∀ env st failed, manualReorderEnabled env = true →
      saveOrder env st failed
        = { rows := st.rows, dirty := false, lastSaved := st.rows.map Job.id } := by
  intro env st failed h
  simp [saveOrder, h]

/-- Witness for the amended C3 at a concrete dirty state and a failing
request. -/
theorem saveOrder_amended_witness :
    saveOrder envManual stDirty true
      = { rows := stDirty.rows, dirty := false, lastSaved := stDirty.rows.map Job.id } :=
  saveOrder_amended envManual stDirty true (by decide)

/-- C8: a priority edit writes the override entry before the remote write
is issued (first component of `doSave`); a successful write leaves the map
exactly as optimistically written; a failed write removes the entry, so
the displayed (effective) priority falls back to the job's stored
priority. -/
theorem priority_override_optimistic_rollback (m : Overrides) (j : Job) (v : Nat)
    (s : Bool) :
    lookupOv (doSave m j.id v s).1 j.id = some v
    ∧ (doSave m j.id v true).2 = (doSave m j.id v true).1
    ∧ lookupOv (doSave m j.id v false).2 j.id = none
    ∧ getPrio (doSave m j.id v false).2 j = j.priority.getD 5 := by
  refine ⟨?_, rfl, ?_, ?_⟩
  · exact lookup_setOverride m j.id v
  · exact lookup_removeOverride (setOverride m j.id v) j.id
  · show (lookupOv (removeOverride (setOverride m j.id v) j.id) j.id).getD _ = _
    rw [lookup_removeOverride (setOverride m j.id v) j.id]
    rfl

/-- C9: when any filter criterion (owner list, status list, priority list,
free-text query, hide-completed toggle) or the page size changes, the
selection-clearing effect resets the Selection Set to empty. -/
theorem filter_change_clears_selection (st : UIState) (c : Criteria) (ps : Nat)
    (h : c ≠ st.crit ∨ ps ≠ st.pageSize) :
    (applyCriteriaChange st c ps).selectedIds = [] := by
  show (if c = st.crit ∧ ps = st.pageSize then st.selectedIds else []) = []
  rw [if_neg]
  rintro ⟨h1, h2⟩
  rcases h with h | h
  · exact h h1
  · exact h h2

/-- Witness for C9: turning on a free-text query clears a non-empty
selection. -/
theorem filter_change_clears_selection_witness :
    (applyCriteriaChange { crit := critEmpty, pageSize := 50, selectedIds := ["x"] }
        (critQuery "z") 50).selectedIds = [] :=
  filter_change_clears_selection
    { crit := critEmpty, pageSize := 50, selectedIds := ["x"] }
    (critQuery "z") 50 (by decide)

/-- C10: whenever any filter, the free-text search, or the hide-completed
toggle is active, or a non-manual sort key is selected, drag-reorder,
move-up, move-down and move-to-top leave the whole reconciler state —
working order, dirty flag and last-saved reference — unchanged. -/
theorem reorder_ops_noop_when_disabled (env : ViewEnv) (st : OrderState)
    (h : env.crit.ownerFilter ≠ [] ∨ env.crit.statusFilter ≠ [] ∨
      env.crit.prioFilter ≠ [] ∨ jsTrim env.crit.q ≠ "" ∨
      env.crit.hideCompleted = true ∨ env.sortKey ≠ SortKey.manual) :
    (∀ aId oId, onDragEnd env st aId oId = st)
    ∧ (∀ jid, moveUp env st jid = st)
    ∧ (∀ jid, moveDown env st jid = st)
    ∧ (∀ jid success, toTop env st jid success = st) := by
  have hdis : manualReorderEnabled env = false := by
    unfold manualReorderEnabled filtersActive filtersApplied searchActive
    rcases h with h | h | h | h | h | h
    · simp [List.isEmpty_iff, h]
    · simp [List.isEmpty_iff, h]
    · simp [List.isEmpty_iff, h]
    · simp [bne_iff_ne, h]
    · simp [h]
    · simp [beq_iff_eq, h]
  refine ⟨?_, ?_, ?_, ?_⟩
  · intro aId oId
    simp [onDragEnd, hdis]
  · intro jid
    simp [moveUp, hdis]
  · intro jid
    simp [moveDown, hdis]
  · intro jid success
    simp [toTop, hdis]

/-- Witness for C10: with the hide-completed toggle active, all four
operations are no-ops on a concrete state. -/
theorem reorder_ops_noop_witness :
    onDragEnd envHide stPQ "a" "b" = stPQ
    ∧ moveUp envHide stPQ "b" = stPQ
    ∧ moveDown envHide stPQ "a" = stPQ
    ∧ toTop envHide stPQ "a" false = stPQ :=
  ⟨(reorder_ops_noop_when_disabled envHide stPQ (by decide)).1 "a" "b",
   (reorder_ops_noop_when_disabled envHide stPQ (by decide)).2.1 "b",
   (reorder_ops_noop_when_disabled envHide stPQ (by decide)).2.2.1 "a",
   (reorder_ops_noop_when_disabled envHide stPQ (by decide)).2.2.2 "a" false⟩

/-- C4 counterexample: for the spec's own scenario query `alpha|beta done`,
the claim says the job named "alpha-job" matches; the code does not match
it — the whole query is split at `|` into the parts `alpha` and
`beta done`, and BOTH must occur in the haystack. -/
theorem query_alternation_counterexample :
    ¬ (jobA ∈ filteredAll fmtId (critQuery "alpha|beta done") [] [jobA, jobG]) := by
  decide

/-- C4 amended: the free-text query is trimmed, lowercased, and split at
`|` into trimmed non-empty parts, ALL of which must be substrings of the
haystack — AND across `|`-parts, with no OR alternation and no
whitespace term splitting.  So `a|b foo` matches exactly the jobs whose
haystack contains both "a" and the literal "b foo", and the scenario
query `alpha|beta done` matches neither "alpha-job" nor "gamma-job". -/
theorem query_and_across_pipe_amended :
    (∀ (fmt : String → String) (j : Job),
      queryOk fmt "a|b foo" j
        = (jsIncludes (haystack fmt j) "a" && jsIncludes (haystack fmt j) "b foo"))
    ∧ filteredAll fmtId (critQuery "alpha|beta done") [] [jobA, jobG] = [] := by
  constructor
  · intro fmt j
    have h : queryOk fmt "a|b foo" j
        = (jsIncludes (haystack fmt j) "a" && (jsIncludes (haystack fmt j) "b foo" && true)) :=
      rfl
    rw [h, Bool.and_true]
  · decide

lemma cursorAfter_mod (ids : List String) (h : ids ≠ []) (k : Nat) :
    cursorAfter ids k = (k * BATCH) % ids.length := by
  have hlen : 0 < ids.length := List.length_pos.mpr h
  induction k with
  | zero => simp [cursorAfter]
  | succ k ih =>
    show tickNext ids (cursorAfter ids k) = _
    rw [ih]
    unfold tickNext
    rw [if_neg (by simpa [List.isEmpty_iff] using h)]
    have hm : (k * BATCH) % ids.length < ids.length := Nat.mod_lt _ hlen
    rw [if_neg (by omega)]
    rw [Nat.mod_add_mod]
    congr 1
    ring

lemma mem_tickSlice_of_index (ids : List String) (j : Nat) (hj : j < ids.length) :
    ids[j] ∈ tickSlice ids ((j / BATCH) * BATCH) := by
  have hB : 0 < BATCH := by decide
  have hcj : (j / BATCH) * BATCH ≤ j := Nat.div_mul_le_self j BATCH
  have hclen : (j / BATCH) * BATCH < ids.length := lt_of_le_of_lt hcj hj
  have hmod := Nat.mod_add_div j BATCH
  have hmlt := Nat.mod_lt j hB
  have hcomm : BATCH * (j / BATCH) = (j / BATCH) * BATCH := Nat.mul_comm _ _
  have hres : j - (j / BATCH) * BATCH < BATCH := by omega
  have hne : ids ≠ [] := by
    intro h
    rw [h] at hj
    simp at hj
  unfold tickSlice
  rw [if_neg (by simpa [List.isEmpty_iff] using hne)]
  rw [if_neg (by omega)]
  have hdl : j - (j / BATCH) * BATCH < (ids.drop ((j / BATCH) * BATCH)).length := by
    rw [List.length_drop]
    omega
  have hm2 : j - (j / BATCH) * BATCH
      < ((ids.drop ((j / BATCH) * BATCH)).take BATCH).length := by
    rw [List.length_take]
    exact lt_min hres hdl
  have heq : ((ids.drop ((j / BATCH) * BATCH)).take BATCH)[j - (j / BATCH) * BATCH] = ids[j] := by
    rw [List.getElem_take, List.getElem_drop]
    congr 1
    omega
  rw [← heq]
  exact List.getElem_mem hm2

lemma tickSlice_subset_fetched (ids : List String) {k K : Nat} (hk : k < K) :
    ∀ x ∈ tickSlice ids (cursorAfter ids k), x ∈ fetchedWithin ids K := by
  induction K with
  | zero => omega
  | succ K ih =>
    intro x hx
    show x ∈ fetchedWithin ids K ++ tickSlice ids (cursorAfter ids K)
    by_cases h : k = K
    · subst h
      exact List.mem_append.mpr (Or.inr hx)
    · exact List.mem_append.mpr (Or.inl (ih (by omega) x hx))

/-- C7: with batch size 25, no poll tick fetches more than 25 ids, and for
an unchanged non-empty active-id list the first ⌈N/25⌉ ticks (cursor
starting at 0) fetch every active id at least once. -/
theorem poller_batch_bound_and_coverage :
    (∀ (ids : List String) (cursor : Nat), (tickSlice ids cursor).length ≤ BATCH)
    ∧ (∀ (ids : List String), ids ≠ [] →
        ∀ x ∈ ids, x ∈ fetchedWithin ids ((ids.length + BATCH - 1) / BATCH)) := by
  constructor
  · intro ids cursor
    unfold tickSlice
    split
    · simp
    · exact List.length_take_le _ _
  · intro ids hne x hx
    obtain ⟨j, hj, rfl⟩ := List.mem_iff_getElem.mp hx
    have hB : 0 < BATCH := by decide
    have hpos : 0 < ids.length := List.length_pos.mpr hne
    have hkK : j / BATCH < (ids.length + BATCH - 1) / BATCH := by
      have h1 : j / BATCH ≤ (ids.length - 1) / BATCH :=
        Nat.div_le_div_right (by omega)
      have h2 : (ids.length + BATCH - 1) / BATCH = (ids.length - 1) / BATCH + 1 := by
        have h3 : ids.length + BATCH - 1 = (ids.length - 1) + BATCH := by omega
        rw [h3, Nat.add_div_right _ hB]
      omega
    have hc : cursorAfter ids (j / BATCH) = ((j / BATCH) * BATCH) % ids.length :=
      cursorAfter_mod ids hne _
    have hcc : ((j / BATCH) * BATCH) % ids.length = (j / BATCH) * BATCH :=
      Nat.mod_eq_of_lt (lt_of_le_of_lt (Nat.div_mul_le_self j BATCH) hj)
    have hmem := mem_tickSlice_of_index ids j hj
    rw [← hcc, ← hc] at hmem
    exact tickSlice_subset_fetched ids hkK _ hmem

/-- Witness for C7 on a concrete two-element active list: one tick
suffices (⌈2/25⌉ = 1) and its slice is bounded. -/
theorem poller_batch_bound_and_coverage_witness :
    (tickSlice ["a", "b"] 0).length ≤ BATCH
    ∧ "b" ∈ fetchedWithin ["a", "b"] (((["a", "b"] : List String).length + BATCH - 1) / BATCH) :=
  ⟨poller_batch_bound_and_coverage.1 ["a", "b"] 0,
   poller_batch_bound_and_coverage.2 ["a", "b"] (by decide) "b" (by decide)⟩

/-! ### Helper lemmas about the sort comparator -/

lemma dirLt_trans {α : Type} [LinearOrder α] {d : Bool} {x y z : α}
    (h1 : dirLt d x y) (h2 : dirLt d y z) : dirLt d x z := by
  cases d <;> simp [dirLt] at h1 h2 ⊢
  · exact lt_trans h2 h1
  · exact lt_trans h1 h2

lemma cmpVal_le_iff {α : Type} [LinearOrder α] (d : Bool) (x y : α) (t : Int) :
    cmpVal d x y t ≤ 0 ↔ (dirLt d x y ∨ (x = y ∧ t ≤ 0)) := by
  unfold cmpVal dirLt
  rcases lt_trichotomy x y with h | rfl | h
  · cases d <;> simp [h, lt_asymm h, ne_of_lt h]
  · cases d <;> simp [lt_irrefl]
  · cases d <;> simp [h, lt_asymm h, ne_of_gt h]

lemma cmpVal_eq_zero_iff {α : Type} [LinearOrder α] (d : Bool) (x y : α) (t : Int) :
    cmpVal d x y t = 0 ↔ (x = y ∧ t = 0) := by
  unfold cmpVal
  rcases lt_trichotomy x y with h | rfl | h
  · cases d <;> simp [h, ne_of_lt h]
  · cases d <;> simp [lt_irrefl]
  · cases d <;> simp [h, lt_asymm h, ne_of_gt h]

lemma cmpVal_neg {α : Type} [LinearOrder α] (d : Bool) (x y : α) (t : Int) :
    cmpVal d y x (-t) = -(cmpVal d x y t) := by
  unfold cmpVal
  rcases lt_trichotomy x y with h | rfl | h
  · cases d <;> simp [h, lt_asymm h]
  · cases d <;> simp [lt_irrefl]
  · cases d <;> simp [h, lt_asymm h]

lemma cmpVal_le_trans {α : Type} [LinearOrder α] (d : Bool) (x y z : α) (t1 t2 : Int)
    (h1 : cmpVal d x y t1 ≤ 0) (h2 : cmpVal d y z t2 ≤ 0) :
    cmpVal d x z (t1 + t2) ≤ 0 := by
  rw [cmpVal_le_iff] at h1 h2 ⊢
  rcases h1 with h1 | ⟨heq1, ht1⟩
  · rcases h2 with h2 | ⟨heq2, ht2⟩
    · exact Or.inl (dirLt_trans h1 h2)
    · exact Or.inl (by rw [← heq2]; exact h1)
  · rcases h2 with h2 | ⟨heq2, ht2⟩
    · exact Or.inl (by rw [heq1]; exact h2)
    · exact Or.inr ⟨heq1.trans heq2, by omega⟩

lemma cmpVal_lt_self_tie {α : Type} [LinearOrder α] (d : Bool) (x : α) (t : Int)
    (h : cmpVal d x x t < 0) : t < 0 := by
  unfold cmpVal at h
  simpa [lt_irrefl] using h

lemma tieBreak_add (jobs : List Job) (a b c : Job) :
    tieBreak jobs a b + tieBreak jobs b c = tieBreak jobs a c := by
  unfold tieBreak
  ring

lemma jsCompare_neg (ov : Overrides) (jobs : List Job) (key : SortKey) (d : Bool)
    (a b : Job) : jsCompare ov jobs key d b a = -(jsCompare ov jobs key d a b) := by
  have ht : tieBreak jobs b a = -(tieBreak jobs a b) := by unfold tieBreak; ring
  cases key <;> simp only [jsCompare] <;> rw [ht] <;> exact cmpVal_neg d _ _ _

lemma jsCompare_le_trans (ov : Overrides) (jobs : List Job) (key : SortKey) (d : Bool)
    {a b c : Job} (h1 : jsCompare ov jobs key d a b ≤ 0)
    (h2 : jsCompare ov jobs key d b c ≤ 0) : jsCompare ov jobs key d a c ≤ 0 := by
  cases key <;> simp only [jsCompare] at h1 h2 ⊢ <;>
    (rw [← tieBreak_add jobs a b c]; exact cmpVal_le_trans d _ _ _ _ _ h1 h2)

lemma jsCompare_eq_zero (ov : Overrides) (jobs : List Job) (key : SortKey) (d : Bool)
    (a b : Job) (h : jsCompare ov jobs key d a b = 0) :
    sameKeyField ov key a b = true ∧ tieBreak jobs a b = 0 := by
  cases key <;> simp only [jsCompare] at h <;>
    obtain ⟨he, ht⟩ := (cmpVal_eq_zero_iff _ _ _ _).mp h <;>
    exact ⟨by simp [sameKeyField, he], ht⟩

lemma jsCompare_lt_tie (ov : Overrides) (jobs : List Job) (key : SortKey) (d : Bool)
    (a b : Job) (hlt : jsCompare ov jobs key d a b < 0)
    (hsame : sameKeyField ov key a b = true) :
    jsFindIndex jobs a.id < jsFindIndex jobs b.id := by
  have ht : tieBreak jobs a b < 0 := by
    cases key <;> simp only [jsCompare] at hlt <;> simp only [sameKeyField] at hsame
    · exact cmpVal_lt_self_tie _ _ _ hlt
    · have he : a.name = b.name := by simpa using hsame
      rw [he] at hlt
      exact cmpVal_lt_self_tie _ _ _ hlt
    · have he : a.created_at.getD "" = b.created_at.getD "" := by simpa using hsame
      rw [he] at hlt
      exact cmpVal_lt_self_tie _ _ _ hlt
    · have he : a.status = b.status := by simpa using hsame
      rw [he] at hlt
      exact cmpVal_lt_self_tie _ _ _ hlt
    · have he : getPrio ov a = getPrio ov b := by simpa using hsame
      rw [he] at hlt
      exact cmpVal_lt_self_tie _ _ _ hlt
  unfold tieBreak at ht
  omega

lemma findIdx?_some_get :
    ∀ (l : List Job) (p : Job → Bool) (i n : Nat),
      l.findIdx? p i = some n →
      ∃ (m : Nat) (h : m < l.length), n = i + m ∧ p (l.get ⟨m, h⟩) = true := by
  intro l
  induction l with
  | nil => intro p i n h; simp [List.findIdx?] at h
  | cons x t ih =>
    intro p i n h
    rw [List.findIdx?_cons] at h
    by_cases hx : p x = true
    · rw [if_pos hx] at h
      obtain rfl := Option.some.inj h
      exact ⟨0, by simp, by omega, hx⟩
    · rw [if_neg hx] at h
      obtain ⟨m, hm, hn, hp⟩ := ih p (i + 1) n h
      exact ⟨m + 1, by simp [List.length_cons]; omega, by omega, by simpa using hp⟩

lemma jsFindIndex_inj {jobs : List Job} {a b : Job}
    (ha : a ∈ jobs) (hb : b ∈ jobs)
    (heq : jsFindIndex jobs a.id = jsFindIndex jobs b.id) : a.id = b.id := by
  unfold jsFindIndex at heq
  have hsa : ∃ n, jobs.findIdx? (fun j => j.id == a.id) = some n := by
    cases hfa : jobs.findIdx? (fun j => j.id == a.id) with
    | some n => exact ⟨n, rfl⟩
    | none =>
      rw [List.findIdx?_eq_none_iff] at hfa
      have := hfa a ha
      simp at this
  have hsb : ∃ n, jobs.findIdx? (fun j => j.id == b.id) = some n := by
    cases hfb : jobs.findIdx? (fun j => j.id == b.id) with
    | some n => exact ⟨n, rfl⟩
    | none =>
      rw [List.findIdx?_eq_none_iff] at hfb
      have := hfb b hb
      simp at this
  obtain ⟨n, hna⟩ := hsa
  obtain ⟨m, hmb⟩ := hsb
  rw [hna, hmb] at heq
  have hnm : n = m := by simpa using heq
  subst hnm
  obtain ⟨ma, hma, hia, hpa⟩ := findIdx?_some_get jobs _ 0 n hna
  obtain ⟨mb, hmb2, hib, hpb⟩ := findIdx?_some_get jobs _ 0 n hmb
  have hmab : ma = mb := by omega
  subst hmab
  have e1 : (jobs.get ⟨ma, hma⟩).id = a.id := by simpa using hpa
  have e2 : (jobs.get ⟨ma, hma⟩).id = b.id := by simpa using hpb
  rw [← e1, ← e2]

lemma eq_of_perm_of_pairwise_asymm {α : Type} {s : α → α → Prop}
    (hasym : ∀ a b, s a b → s b a → False) :
    ∀ {l1 l2 : List α}, l1.Perm l2 → l1.Pairwise s → l2.Pairwise s → l1 = l2 := by
  intro l1
  induction l1 with
  | nil =>
    intro l2 hp _ _
    exact (hp.symm.eq_nil).symm
  | cons a t ih =>
    intro l2 hp h1 h2
    have ha : a ∈ l2 := hp.mem_iff.mp (List.mem_cons_self a t)
    obtain ⟨u, v, rfl⟩ := List.append_of_mem ha
    cases u with
    | nil =>
      simp only [List.nil_append] at hp h2 ⊢
      have htv := ih hp.cons_inv (List.pairwise_cons.mp h1).2 (List.pairwise_cons.mp h2).2
      rw [htv]
    | cons b u2 =>
      exfalso
      have hb : b ∈ a :: t := hp.mem_iff.mpr (by simp)
      have hba : s b a := (List.pairwise_cons.mp h2).1 a (by simp)
      rcases List.mem_cons.mp hb with rfl | hbt
      · exact hasym b b hba hba
      · exact hasym a b ((List.pairwise_cons.mp h1).1 b hbt) hba

lemma baseRows_eq_sortJobs (fmt : String → String) (ov : Overrides) (crit : Criteria)
    (key : SortKey) (d : Bool) (rows jobs : List Job) (hk : key ≠ SortKey.manual) :
    baseRows fmt ov crit key d rows jobs
      = sortJobs ov jobs key d (filteredAll fmt crit ov jobs) := by
  cases key
  · exact absurd rfl hk
  all_goals rfl

lemma pairwise_strict_of_sorted (ov : Overrides) (jobs : List Job) (key : SortKey)
    (d : Bool) {l : List Job}
    (hmem : ∀ x ∈ l, x ∈ jobs)
    (hids : l.Pairwise (fun a b => a.id ≠ b.id))
    (hsort : l.Pairwise (fun a b => jsCompare ov jobs key d a b ≤ 0)) :
    l.Pairwise (fun a b => jsCompare ov jobs key d a b < 0) := by
  refine List.Pairwise.imp_of_mem ?_ (hsort.and hids)
  intro a b ha hb h
  obtain ⟨hle, hne⟩ := h
  refine lt_of_le_of_ne hle ?_
  intro h0
  obtain ⟨hsame, htie⟩ := jsCompare_eq_zero ov jobs key d a b h0
  have hidx : jsFindIndex jobs a.id = jsFindIndex jobs b.id := by
    unfold tieBreak at htie
    omega
  exact hne (jsFindIndex_inj (hmem a ha) (hmem b hb) hidx)

lemma str_pos_of_ne_empty (s : String) (h : s ≠ "") : ("" : String) < s := by
  cases s with
  | mk data =>
    cases data with
    | nil => exact absurd rfl h
    | cons c cs =>
      apply String.lt_iff_toList_lt.mpr
      exact List.nil_lt_cons c cs

/-- C6: for every non-manual sort key and either direction, the rendered
base rows are a permutation of the filtered subset, ordered by the
comparator, with ties (equal compared field) broken by ascending snapshot
index whatever the direction; any comparator-sorted permutation equals
this output (determinism over the sort routine); and under ascending
created-date order a missing timestamp compares as the earliest value. -/
theorem sort_deterministic_stable (fmt : String → String) (ov : Overrides)
    (crit : Criteria) (key : SortKey) (dirAsc : Bool) (rows jobs : List Job)
    (hk : key ≠ SortKey.manual) (hnd : (jobs.map Job.id).Nodup) :
    sortOutputSpec ov jobs key dirAsc (filteredAll fmt crit ov jobs)
      (baseRows fmt ov crit key dirAsc rows jobs)
    ∧ (∀ a b : Job, a.created_at = none → b.created_at.getD "" ≠ "" →
        jsCompare ov jobs SortKey.created_at true a b = -1) := by
  have hbase : baseRows fmt ov crit key dirAsc rows jobs
      = sortJobs ov jobs key dirAsc (filteredAll fmt crit ov jobs) :=
    baseRows_eq_sortJobs fmt ov crit key dirAsc rows jobs hk
  have htrans : ∀ a b c : Job,
      decide (jsCompare ov jobs key dirAsc a b ≤ 0) = true →
      decide (jsCompare ov jobs key dirAsc b c ≤ 0) = true →
      decide (jsCompare ov jobs key dirAsc a c ≤ 0) = true := by
    intro a b c h1 h2
    rw [decide_eq_true_eq] at h1 h2 ⊢
    exact jsCompare_le_trans ov jobs key dirAsc h1 h2
  have htotal : ∀ a b : Job,
      (decide (jsCompare ov jobs key dirAsc a b ≤ 0)
        || decide (jsCompare ov jobs key dirAsc b a ≤ 0)) = true := by
    intro a b
    rw [Bool.or_eq_true, decide_eq_true_eq, decide_eq_true_eq, jsCompare_neg]
    omega
  have hsub : (filteredAll fmt crit ov jobs).Sublist jobs := List.filter_sublist jobs
  have hmemxs : ∀ x ∈ filteredAll fmt crit ov jobs, x ∈ jobs :=
    fun x hx => hsub.subset hx
  have hndxs : ((filteredAll fmt crit ov jobs).map Job.id).Nodup :=
    List.Nodup.sublist (hsub.map Job.id) hnd
  have hidsxs : (filteredAll fmt crit ov jobs).Pairwise (fun a b => a.id ≠ b.id) :=
    pairwise_id_ne_of_nodup hndxs
  have hperm : (sortJobs ov jobs key dirAsc (filteredAll fmt crit ov jobs)).Perm
      (filteredAll fmt crit ov jobs) :=
    List.mergeSort_perm (filteredAll fmt crit ov jobs) _
  have hsorted := List.sorted_mergeSort htrans htotal (filteredAll fmt crit ov jobs)
  have hsorted' : (sortJobs ov jobs key dirAsc (filteredAll fmt crit ov jobs)).Pairwise
      (fun a b => jsCompare ov jobs key dirAsc a b ≤ 0) := by
    refine hsorted.imp ?_
    intro a b h
    rw [decide_eq_true_eq] at h
    exact h
  have hidsout : (sortJobs ov jobs key dirAsc (filteredAll fmt crit ov jobs)).Pairwise
      (fun a b => a.id ≠ b.id) :=
    (hperm.pairwise_iff (fun hxy => Ne.symm hxy)).mpr hidsxs
  have hmemout : ∀ x ∈ sortJobs ov jobs key dirAsc (filteredAll fmt crit ov jobs),
      x ∈ jobs := fun x hx => hmemxs x (hperm.subset hx)
  have hstrict := pairwise_strict_of_sorted ov jobs key dirAsc hmemout hidsout hsorted'
  refine ⟨⟨?_, ?_, ?_⟩, ?_⟩
  · rw [hbase]
    exact hperm
  · rw [hbase]
    refine hstrict.imp ?_
    intro a b hlt hsame
    exact jsCompare_lt_tie ov jobs key dirAsc a b hlt hsame
  · intro l hl hpl
    rw [hbase]
    have hpermlout : l.Perm (sortJobs ov jobs key dirAsc (filteredAll fmt crit ov jobs)) :=
      hl.trans hperm.symm
    have hidsl : l.Pairwise (fun a b => a.id ≠ b.id) :=
      (hl.pairwise_iff (fun hxy => Ne.symm hxy)).mpr hidsxs
    have hmeml : ∀ x ∈ l, x ∈ jobs := fun x hx => hmemxs x (hl.subset hx)
    have hstrictl := pairwise_strict_of_sorted ov jobs key dirAsc hmeml hidsl hpl
    exact eq_of_perm_of_pairwise_asymm
      (fun a b h1 h2 => by
        have hneg := jsCompare_neg ov jobs key dirAsc a b
        omega)
      hpermlout hstrictl hstrict
  · intro a b hnone hne
    simp only [jsCompare, hnone]
    have hb : ("" : String) < b.created_at.getD "" := str_pos_of_ne_empty _ hne
    unfold cmpVal
    rw [if_pos (by simpa using hb)]
    rfl

/-- Witness for C6 on a concrete two-job snapshot sorted by name
ascending. -/
theorem sort_deterministic_stable_witness :
    sortOutputSpec [] [jobQ, jobP] SortKey.name true
      (filteredAll fmtId critEmpty [] [jobQ, jobP])
      (baseRows fmtId [] critEmpty SortKey.name true [] [jobQ, jobP])
    ∧ (∀ a b : Job, a.created_at = none → b.created_at.getD "" ≠ "" →
        jsCompare [] [jobQ, jobP] SortKey.created_at true a b = -1) :=
  sort_deterministic_stable fmtId [] critEmpty SortKey.name true [] [jobQ, jobP]
    (by decide) (by decide)
